import Mathlib

/-!
Verification of the BentoML `Store` engine (`src/bentoml/_internal/store.py`)
against its natural-language specification.

The Python code is shallowly embedded: the store's backend subtree (the
pyfilesystem `FS` rooted at the store's base path) is modelled as an explicit
`StoreState` value — a list of name directories, each holding version
subdirectories and an optional `latest` pointer file.  Operations become pure
functions `StoreState → Except StoreErr _` (exceptions become `Except`
errors).  Timestamps (`datetime`) are modelled as `Nat` (only their order
matters).  Python's stable `sorted` is modelled with `List.insertionSort`,
which is likewise a stable ascending sort, hence extensionally the same
function on every total preorder.

The `Tag` value type lives in `src/bentoml/_internal/types.py`, which is not
part of the provided sources; its definitions below are modelled from the
spec (§3, §4.1) and are marked as such.
-/

namespace BentoMLStore

/-- Modelled from the spec: `Tag` from the missing `types.py` — "a name plus an
optional version" (§2), `{name: string, version: optional string}` (§3). -/
structure Tag where
  name : String
  version : Option String
deriving DecidableEq, Repr

/-- Split a character list at its first `:`, when one occurs (the semantics
of Python's `str.partition(":")`). -/
def splitFirstColon : List Char → Option (List Char × List Char)
  | [] => none
  | c :: cs =>
    if c = ':' then some ([], cs)
    else
      match splitFirstColon cs with
      | none => none
      | some (l, r) => some (c :: l, r)

/-- Modelled from the spec: `Tag` parsing from the missing `types.py` —
`parse` "accepts `name`, `name:version`, or an already-parsed Tag; splits on
the first separator" (§4.1).  An empty part after the separator yields an
absent version. -/
def Tag.from_taglike (s : String) : Tag :=
  match splitFirstColon s.data with
  | none => ⟨s, none⟩
  | some (n, v) =>
    if v = [] then ⟨String.mk n, none⟩ else ⟨String.mk n, some (String.mk v)⟩

/-- Modelled from the spec: `Tag.path()` from the missing `types.py` —
"`name` if version absent, `name/version` if version present" (§4.1). -/
def Tag.path (t : Tag) : String :=
  match t.version with
  | none => t.name
  | some v => t.name ++ "/" ++ v

/-- Modelled from the spec: `Tag.latest_path()` from the missing `types.py` —
"always `name/latest`, independent of this tag's own version" (§4.1). -/
def Tag.latest_path (t : Tag) : String :=
  t.name ++ "/latest"

/-- Modelled from the spec: the string form of a tag, "`name[:version]`"
(glossary). -/
def Tag.str (t : Tag) : String :=
  match t.version with
  | none => t.name
  | some v => t.name ++ ":" ++ v

/-- Strict lexicographic order on character lists, comparing Unicode code
points — the order Python uses to compare `str` values. -/
def strLtB : List Char → List Char → Bool
  | [], [] => false
  | [], _ :: _ => true
  | _ :: _, [] => false
  | a :: as, b :: bs =>
    if a.toNat < b.toNat then true
    else if b.toNat < a.toNat then false
    else strLtB as bs

/-- Reflexive lexicographic order on character lists. -/
def strLeB : List Char → List Char → Bool
  | [], _ => true
  | _ :: _, [] => false
  | a :: as, b :: bs =>
    if a.toNat < b.toNat then true
    else if b.toNat < a.toNat then false
    else strLeB as bs

/-- Strict code-point lexicographic order on strings (Python's `s < t`). -/
def StrLt (a b : String) : Prop :=
  strLtB a.data b.data = true

/-- Reflexive code-point lexicographic order on strings (Python's `s <= t`). -/
def StrLe (a b : String) : Prop :=
  strLeB a.data b.data = true

instance : ∀ a b, Decidable (StrLt a b) := fun a b =>
  inferInstanceAs (Decidable (_ = true))

instance : ∀ a b, Decidable (StrLe a b) := fun a b =>
  inferInstanceAs (Decidable (_ = true))

/-- Modelled from the spec: ordering of optional versions, an absent version
ordering first (used only through `TagLe` where both versions are present). -/
def VerLe : Option String → Option String → Prop
  | none, _ => True
  | some _, none => False
  | some a, some b => StrLe a b

instance : ∀ a b, Decidable (VerLe a b) := fun a b =>
  match a, b with
  | none, _ => isTrue trivial
  | some _, none => isFalse (fun h => h)
  | some x, some y => inferInstanceAs (Decidable (StrLe x y))

/-- Modelled from the spec: `Tag` ordering from the missing `types.py` —
"tags order by name then by version (string ordering over version ...)" (§3). -/
def TagLe (a b : Tag) : Prop :=
  StrLt a.name b.name ∨ (a.name = b.name ∧ VerLe a.version b.version)

instance : ∀ a b, Decidable (TagLe a b) := fun a b =>
  inferInstanceAs (Decidable (_ ∨ _))

/-- An `Item` as the store observes it through the `StoreItem` capability:
`from_fs(tag, fs)` yields a value whose `tag` accessor returns the tag it was
constructed with (spec §3: "must equal the tag used to construct it") and
whose `creation_time()` is read from the version subtree's content. -/
structure Item where
  tag : Tag
  creationTime : Nat
deriving DecidableEq, Repr

/-- Content of one version subdirectory `name/version/...`: the version
string (the directory's name) and the stored creation timestamp that
`Item.creation_time` reports. -/
structure VersionDir where
  version : String
  creationTime : Nat
deriving DecidableEq, Repr

/-- Content of one name subtree `name/`: version subdirectories plus the
optional `name/latest` pointer file (its `String` content when present). -/
structure NameDir where
  name : String
  versions : List VersionDir
  latest : Option String
deriving DecidableEq, Repr

/-- The store's backend subtree: the directories under the base path. -/
structure StoreState where
  names : List NameDir
deriving DecidableEq, Repr

namespace StoreState

/-- Backend lookup of the directory entry for `name/`. -/
def findName (st : StoreState) (n : String) : Option NameDir :=
  st.names.find? (fun nd => nd.name == n)

/-- Backend lookup of the subdirectory entry for `version` inside a name
directory. -/
def findVersion (nd : NameDir) (v : String) : Option VersionDir :=
  nd.versions.find? (fun vd => vd.version == v)

/-- Backend `isdir(name)`. -/
def isdirName (st : StoreState) (n : String) : Bool :=
  (st.findName n).isSome

/-- Backend `isdir(name/version)`. -/
def isdirVersion (st : StoreState) (n v : String) : Bool :=
  match st.findName n with
  | some nd => (findVersion nd v).isSome
  | none => false

/-- Backend `readtext(name/latest)`: `none` models the
`fs.errors.ResourceNotFound` raise (name directory or pointer file absent). -/
def latestContents (st : StoreState) (n : String) : Option String :=
  (st.findName n).bind (fun nd => nd.latest)

/-- Backend `exists(name/v)`: true when a version directory `v` exists, or
when `v` is literally `latest` and the pointer file exists (the pointer is an
entry of the name directory). -/
def pathExists (st : StoreState) (n v : String) : Bool :=
  st.isdirVersion n v || (v == "latest" && (st.latestContents n).isSome)

/-- Backend `exists(t.path())` for a whole tag. -/
def tagPathExists (st : StoreState) (t : Tag) : Bool :=
  match t.version with
  | none => st.isdirName t.name
  | some v => st.pathExists t.name v

/-- String `p` starts string `s` (character-wise; the glob pattern `p*`
matched against `s`). -/
def strStartsWith (p s : String) : Bool :=
  p.data.isPrefixOf s.data

/-- Backend glob `name/v*/`: the version directory names under `n` that start
with `v`, in the backend's enumeration order. -/
def globDirs (st : StoreState) (n v : String) : List String :=
  match st.findName n with
  | none => []
  | some nd => (nd.versions.filter (fun vd => strStartsWith v vd.version)).map
      (fun vd => vd.version)

/-- Creation timestamp stored in version subtree `n/v` (0 if absent; only
read where existence was already established). -/
def creationOf (st : StoreState) (n v : String) : Nat :=
  match st.findName n with
  | some nd =>
    match findVersion nd v with
    | some vd => vd.creationTime
    | none => 0
  | none => 0

/-- `Store._get_item(Tag(n, v))`: `self._item_type.from_fs(tag, self._fs.opendir(tag.path()))`. -/
def getItem (st : StoreState) (n v : String) : Item :=
  ⟨⟨n, some v⟩, st.creationOf n v⟩

/-- Backend `writetext(n/latest, s)` / `open(n/latest, "w")` + write:
create-or-overwrite the pointer file (no-op on a missing name directory,
which never occurs at its call sites). -/
def writeLatest (st : StoreState) (n s : String) : StoreState :=
  ⟨st.names.map (fun nd => if nd.name == n then ⟨nd.name, nd.versions, some s⟩ else nd)⟩

/-- Backend `makedirs(t.path())`: create the name directory if missing and,
when the tag carries a version, an (empty, timestamp 0) version
subdirectory.  Only called after the existence check failed. -/
def makedirs (st : StoreState) (t : Tag) : StoreState :=
  match t.version with
  | none =>
    if st.isdirName t.name then st else ⟨st.names ++ [⟨t.name, [], none⟩]⟩
  | some v =>
    if st.isdirName t.name then
      ⟨st.names.map (fun nd =>
        if nd.name == t.name then ⟨nd.name, nd.versions ++ [⟨v, 0⟩], nd.latest⟩ else nd)⟩
    else ⟨st.names ++ [⟨t.name, [⟨v, 0⟩], none⟩]⟩

/-- Backend `removetree(n)` on a whole name subtree. -/
def removeName (st : StoreState) (n : String) : StoreState :=
  ⟨st.names.filter (fun nd => nd.name != n)⟩

/-- Backend `removetree(n/v)` on one version subtree. -/
def removeVersion (st : StoreState) (n v : String) : StoreState :=
  ⟨st.names.map (fun nd =>
    if nd.name == n then ⟨nd.name, nd.versions.filter (fun vd => vd.version != v), nd.latest⟩
    else nd)⟩

/-- The caller of `register` populating the version subtree `n/v`: sets the
stored creation timestamp. -/
def setCreation (st : StoreState) (n v : String) (ct : Nat) : StoreState :=
  ⟨st.names.map (fun nd =>
    if nd.name == n then
      ⟨nd.name, nd.versions.map (fun vd => if vd.version == v then ⟨vd.version, ct⟩ else vd),
        nd.latest⟩
    else nd)⟩

end StoreState

/-- Error kinds raised by the store, named per spec §7 rather than by Python
exception class: `notFound` is `bentoml.exceptions.NotFound`,
`alreadyExists` and `ambiguousVersion` are the two `BentoMLException` raise
sites in `register` and `get`, `resourceNotFound` is an untranslated
`fs.errors.ResourceNotFound` from the backend and `directoryExpected` an
untranslated `fs.errors.DirectoryExpected`.  `ambiguousVersion` carries the
two values interpolated into its message: the working version and the `vers`
list. -/
inductive StoreErr where
  | notFound (msg : String)
  | alreadyExists (msg : String)
  | ambiguousVersion (version : String) (vers : List String)
  | resourceNotFound (path : String)
  | directoryExpected (path : String)
deriving DecidableEq, Repr

/-- Message of the `NotFound` raised when the latest pointer is missing (the
`{self._fs}` repr suffix of the f-string is elided as it does not depend on
the tag). -/
def noItemsMsg (itemType n : String) : String :=
  "no " ++ itemType ++ "s with name '" ++ n ++ "' exist in BentoML store"

/-- Message of the `NotFound` raised when prefix resolution has zero matches
(`{self._fs}` repr elided). -/
def notFoundMsg (itemType tagStr : String) : String :=
  itemType ++ " '" ++ tagStr ++ "' is not found in BentoML store."

/-- Message of the `BentoMLException` raised by `register` on an existing
item (`{self._fs}` repr elided). -/
def alreadyExistsMsg (tagStr : String) : String :=
  "Item '" ++ tagStr ++ "' already exists in the store"

namespace Store

open StoreState

/-- The `_tag.version is None` branch of `Store.list`: `sorted([Tag(_tag.name,
f.name) for f in self._fs.scandir(_tag.name) if f.is_dir])` mapped through
`_get_item`.  `scandir` on a missing directory raises the backend's
`ResourceNotFound`; the `is_dir` filter drops the `latest` pointer file. -/
def list_name (st : StoreState) (n : String) : Except StoreErr (List Item) :=
  match st.findName n with
  | none => .error (.resourceNotFound n)
  | some nd =>
    let tags := (nd.versions.map (fun vd => Tag.mk n (some vd.version))).insertionSort TagLe
    .ok (tags.map (fun tg => st.getItem tg.name (tg.version.getD "")))

/-- The explicit-version branch of `Store.list`: `[self._get_item(_tag)] if
self._fs.isdir(_tag.path()) else []`. -/
def list_version (st : StoreState) (n v : String) : List Item :=
  if st.isdirVersion n v then [st.getItem n v] else []

/-- `Store.list` with a (parsed) tag filter. -/
def listTag (st : StoreState) (t : Tag) : Except StoreErr (List Item) :=
  match t.version with
  | none => list_name st t.name
  | some v => .ok (list_version st t.name v)

/-- The no-filter branch of `Store.list`: `[ver for _d in
sorted(self._fs.listdir("/")) for ver in self.list(_d)]`.  The recursive call
goes through `Tag.from_taglike` on the directory name. -/
def list_all (st : StoreState) : Except StoreErr (List Item) :=
  ((st.names.map (fun nd => nd.name)).insertionSort StrLe).foldlM
    (fun acc n => do
      let items ← listTag st (Tag.from_taglike n)
      pure (acc ++ items)) []

/-- `Store.list`: dispatch on the presence of a tag filter (`if not tag`). -/
def list (st : StoreState) (filter : Option Tag) : Except StoreErr (List Item) :=
  match filter with
  | none => list_all st
  | some t => listTag st t

/-- Step 1 of `Store.get`: the working version after the latest-pointer
substitution — `if _tag.version is None or _tag.version == "latest":
_tag.version = self._fs.readtext(_tag.latest_path())`, `none` when that read
raises `ResourceNotFound`. -/
def resolvedVersion (st : StoreState) (t : Tag) : Option String :=
  if t.version = none ∨ t.version = some "latest" then st.latestContents t.name
  else t.version

/-- `Store.get`: latest-pointer substitution, then exact-path check, then
prefix resolution on the glob `{path}*/`.  The `vers` list of the ambiguous
case reproduces `vers += match.info.name`, which extends the list with the
characters of each matched version string.  `itemType` is
`self._item_type.__name__`. -/
def get (st : StoreState) (itemType : String) (t : Tag) : Except StoreErr Item :=
  match resolvedVersion st t with
  | none => .error (.notFound (noItemsMsg itemType t.name))
  | some v =>
    if st.pathExists t.name v then
      if st.isdirVersion t.name v then .ok (st.getItem t.name v)
      else .error (.directoryExpected (t.name ++ "/" ++ v))
    else
      match st.globDirs t.name v with
      | [] => .error (.notFound (notFoundMsg itemType t.str))
      | [m] => .ok (st.getItem t.name m)
      | ms => .error (.ambiguousVersion v
          (ms.foldl (fun acc m => acc ++ m.data.map (fun c => String.mk [c])) []))

/-- Acquisition half of the `register` context manager: the existence
precondition check followed by `makedirs`.  On error the backend is not
touched. -/
def register_enter (st : StoreState) (t : Tag) : Except StoreErr StoreState :=
  if st.tagPathExists t then .error (.alreadyExists (alreadyExistsMsg t.str))
  else .ok (st.makedirs t)

/-- Release half of the `register` context manager (the `finally` block):
overwrite the latest pointer with this tag's version string. -/
def register_exit (st : StoreState) (t : Tag) : StoreState :=
  st.writeLatest t.name (t.version.getD "")

/-- Outcome of the caller's population of the version subtree inside the
`with` block: normal completion (with the creation timestamp it wrote), or a
caller-raised error / cancellation before the content was complete. -/
inductive BodyOutcome where
  | completed (creationTime : Nat)
  | failed
deriving DecidableEq, Repr

/-- One whole `with store.register(tag): ...` interaction: enter, caller
body, and the unconditional `finally` release.  When the body fails, the
caller's own exception propagates after the release; the returned state is
the backend state once the `with` block has unwound. -/
def register_run (st : StoreState) (t : Tag) (body : BodyOutcome) :
    Except StoreErr StoreState :=
  match register_enter st t with
  | .error e => .error e
  | .ok st1 =>
    let st2 := match body with
      | .completed ct => st1.setCreation t.name (t.version.getD "") ct
      | .failed => st1
    .ok (register_exit st2 t)

/-- Ordering used by `sorted(versions, key=self._item_type.creation_time)`. -/
def CreationLe (a b : Item) : Prop :=
  a.creationTime ≤ b.creationTime

instance : ∀ a b, Decidable (CreationLe a b) := fun a b =>
  inferInstanceAs (Decidable (_ ≤ _))

/-- `Store.delete`: `removetree(_tag.path())` (an absent path raises the
backend's `ResourceNotFound`, an existing non-directory entry — only the
pointer file when the version is literally `latest` — raises its
`DirectoryExpected`); then, if the name directory survives, either remove it
when no versions remain or rewrite the latest pointer from the
minimum-creation-time remaining item.  Note the code writes
`new_latest.tag.name` into the pointer. -/
def delete (st : StoreState) (t : Tag) : Except StoreErr StoreState :=
  match t.version with
  | none =>
    if st.isdirName t.name then .ok (st.removeName t.name)
    else .error (.resourceNotFound t.path)
  | some v =>
    if st.isdirVersion t.name v then
      if (st.removeVersion t.name v).isdirName t.name then
        match list_name (st.removeVersion t.name v) t.name with
        | .error e => .error e
        | .ok versions =>
          match versions.insertionSort CreationLe with
          | [] => .ok ((st.removeVersion t.name v).removeName t.name)
          | new_latest :: _ =>
            .ok ((st.removeVersion t.name v).writeLatest t.name new_latest.tag.name)
      else .ok (st.removeVersion t.name v)
    else
      if v == "latest" && (st.latestContents t.name).isSome then
        .error (.directoryExpected t.path)
      else .error (.resourceNotFound t.path)

/-- The group of items `list` produces for one existing name: the ok-value of
the name branch (`[]` for an absent name, where that branch errors
instead). -/
def listGroup (st : StoreState) (n : String) : List Item :=
  match st.findName n with
  | none => []
  | some nd =>
    ((nd.versions.map (fun vd => Tag.mk n (some vd.version))).insertionSort TagLe).map
      (fun tg => st.getItem tg.name (tg.version.getD ""))

end Store

/-- Wellformedness of a store subtree, as guaranteed by tag validation at
registration time (spec §3): distinct name directories, nonempty names that
parse back as pure names (no separator), and distinct version directories
under each name. -/
def StoreState.wf (st : StoreState) : Prop :=
  (st.names.map (fun nd => nd.name)).Nodup ∧
  ∀ nd ∈ st.names, nd.name ≠ "" ∧ Tag.from_taglike nd.name = ⟨nd.name, none⟩ ∧
    (nd.versions.map (fun vd => vd.version)).Nodup

instance (st : StoreState) : Decidable st.wf :=
  inferInstanceAs (Decidable (_ ∧ _))

/-- The latest-pointer invariant of spec §3: a pointer file never exists
without its owning name subtree containing at least one version. -/
def latestInv (st : StoreState) : Prop :=
  ∀ nd ∈ st.names, nd.latest.isSome → nd.versions ≠ []

instance (st : StoreState) : Decidable (latestInv st) :=
  inferInstanceAs (Decidable (∀ nd ∈ st.names, _))

/-! Order facts about the lexicographic string order. -/

theorem strLtB_irrefl : ∀ x : List Char, strLtB x x = false
  | [] => rfl
  | a :: as => by simp [strLtB, Nat.lt_irrefl, strLtB_irrefl as]

theorem strLeB_refl : ∀ x : List Char, strLeB x x = true
  | [] => rfl
  | a :: as => by simp [strLeB, Nat.lt_irrefl, strLeB_refl as]

theorem strLeB_total : ∀ x y : List Char, strLeB x y = true ∨ strLeB y x = true
  | [], _ => Or.inl rfl
  | _ :: _, [] => Or.inr rfl
  | a :: as, b :: bs => by
    rcases Nat.lt_trichotomy a.toNat b.toNat with h | h | h
    · left; simp [strLeB, h]
    · have ih := strLeB_total as bs
      simpa [strLeB, h, Nat.lt_irrefl] using ih
    · right; simp [strLeB, h]

theorem strLeB_trans : ∀ x y z : List Char,
    strLeB x y = true → strLeB y z = true → strLeB x z = true
  | [], _, _, _, _ => rfl
  | _ :: _, [], _, h1, _ => by simp [strLeB] at h1
  | _ :: _, _ :: _, [], _, h2 => by simp [strLeB] at h2
  | a :: as, b :: bs, c :: cs, h1, h2 => by
    simp only [strLeB] at h1 h2 ⊢
    rcases Nat.lt_trichotomy a.toNat b.toNat with hab | hab | hab
    · rcases Nat.lt_trichotomy b.toNat c.toNat with hbc | hbc | hbc
      · have hac : a.toNat < c.toNat := Nat.lt_trans hab hbc
        simp [hac]
      · have hac : a.toNat < c.toNat := by omega
        simp [hac]
      · simp [Nat.lt_asymm hbc, hbc] at h2
    · rcases Nat.lt_trichotomy b.toNat c.toNat with hbc | hbc | hbc
      · have hac : a.toNat < c.toNat := by omega
        simp [hac]
      · have hac : a.toNat = c.toNat := by omega
        have h1' : strLeB as bs = true := by simpa [hab, Nat.lt_irrefl] using h1
        have h2' : strLeB bs cs = true := by simpa [hbc, Nat.lt_irrefl] using h2
        simp [hac, Nat.lt_irrefl, strLeB_trans as bs cs h1' h2']
      · simp [Nat.lt_asymm hbc, hbc] at h2
    · simp [Nat.lt_asymm hab, hab] at h1

instance : IsTotal String StrLe :=
  ⟨fun a b => strLeB_total a.data b.data⟩

instance : IsTrans String StrLe :=
  ⟨fun a b c => strLeB_trans a.data b.data c.data⟩

/-! Claim C1. -/

/-- A store holding two versions of `demo`: version `1` created at time 5,
version `2` created at time 3, with the latest pointer at `2`. -/
def c1_store : StoreState :=
  ⟨[⟨"demo", [⟨"1", 5⟩, ⟨"2", 3⟩], some "2"⟩]⟩

/-- C1: refuted as stated — deleting `demo:2` from a store whose remaining
version is `1` (the unique, hence minimal, remaining `creationTime`) leaves
the latest-pointer file containing the string `demo` (the tag's *name*,
which `delete` writes via `new_latest.tag.name`), not the version string `1`
the claim requires. -/
theorem c1_delete_writes_name_into_pointer :
    Store.delete c1_store ⟨"demo", some "2"⟩
      = .ok ⟨[⟨"demo", [⟨"1", 5⟩], some "demo"⟩]⟩
    ∧ (Store.delete c1_store ⟨"demo", some "2"⟩).map
        (fun st => st.latestContents "demo") ≠ .ok (some "1") :=
  ⟨rfl, fun h => by
    have h' : (some "demo" : Option String) = some "1" := by
      injection h
    simp at h'⟩

/-! Claim C2. -/

/-- A store holding versions `1a` and `1b` of `demo`, both sharing the
prefix `1` which matches neither exactly. -/
def c2_store : StoreState :=
  ⟨[⟨"demo", [⟨"1a", 1⟩, ⟨"1b", 2⟩], some "1b"⟩]⟩

/-- C2: refuted as stated — `get demo:1` with the two prefix matches `1a`
and `1b` fails with the ambiguous-version error, but the carried list is
`["1", "a", "1", "b"]`: the `vers += match.info.name` accumulation extends
the list with the *characters* of each matched version string, so the
matched version strings are not elements of the carried list. -/
theorem c2_ambiguous_error_carries_characters :
    Store.get c2_store "Bento" ⟨"demo", some "1"⟩
      = .error (.ambiguousVersion "1" ["1", "a", "1", "b"])
    ∧ (["1", "a", "1", "b"] : List String) ≠ ["1a", "1b"] :=
  ⟨rfl, by decide⟩

/-! Claim C3. -/

/-- A store in which no name subtree exists at all — e.g. the state after
the last version of every name was deleted. -/
def emptyStore : StoreState := ⟨[]⟩

/-- C3 counterexample: `list` of a name whose subtree does not exist does
not return an empty sequence — `scandir` raises the backend's untranslated
`ResourceNotFound`, so `list` raises for this absent selection. -/
theorem c3_list_of_missing_name_raises :
    Store.list emptyStore (some ⟨"demo", none⟩) = .error (.resourceNotFound "demo")
    ∧ Store.list emptyStore (some ⟨"demo", none⟩) ≠ .ok [] :=
  ⟨rfl, fun h => Except.noConfusion h⟩

/-- C3 amended: `list` with an explicit version that has no exact version
subdirectory returns an empty sequence, and `list` of a name whose directory
exists but holds no version subdirectories returns an empty sequence; but
`list` of a name whose subtree does not exist raises the backend's
`ResourceNotFound` instead of returning an empty sequence. -/
theorem c3_list_empty_selections (st : StoreState) (n v : String) :
    (st.isdirVersion n v = false → Store.list st (some ⟨n, some v⟩) = .ok [])
    ∧ (∀ nd, st.findName n = some nd → nd.versions = [] →
        Store.list st (some ⟨n, none⟩) = .ok [])
    ∧ (st.findName n = none →
        Store.list st (some ⟨n, none⟩) = .error (.resourceNotFound n)) := by
  refine ⟨fun h => ?_, fun nd hnd hvs => ?_, fun h => ?_⟩
  · simp [Store.list, Store.listTag, Store.list_version, h]
  · simp [Store.list, Store.listTag, Store.list_name, hnd, hvs]
  · simp [Store.list, Store.listTag, Store.list_name, h]

/-- A name directory for `demo` that exists but holds no version
subdirectories (the transient shape `delete` observes before removing the
subtree). -/
def c3_empty_name_store : StoreState :=
  ⟨[⟨"demo", [], some "x"⟩]⟩

/-- C3 amended, witnessed: an absent explicit version and an empty existing
name directory both list as `[]`; an absent name raises. -/
theorem c3_list_empty_selections_witness :
    Store.list c3_empty_name_store (some ⟨"demo", some "9"⟩) = .ok []
    ∧ Store.list c3_empty_name_store (some ⟨"demo", none⟩) = .ok []
    ∧ Store.list c3_empty_name_store (some ⟨"ghost", none⟩)
        = .error (.resourceNotFound "ghost") :=
  ⟨(c3_list_empty_selections c3_empty_name_store "demo" "9").1 (by decide),
   (c3_list_empty_selections c3_empty_name_store "demo" "9").2.1
     ⟨"demo", [], some "x"⟩ (by decide) rfl,
   (c3_list_empty_selections c3_empty_name_store "ghost" "9").2.2 (by decide)⟩

/-! Claim C10. -/

/-- C10: `delete` of a tag whose version path has no backend entry raises
the backend's own `ResourceNotFound` (not the store's translated `notFound`
kind); no successor state is produced, so the backend is untouched. -/
theorem c10_delete_missing_version_raises_backend_error (st : StoreState)
    (t : Tag) (v : String) (hv : t.version = some v)
    (h : st.pathExists t.name v = false) :
    Store.delete st t = .error (.resourceNotFound t.path) := by
  have h' := h
  simp only [StoreState.pathExists, Bool.or_eq_false_iff, Bool.and_eq_false_imp,
    beq_iff_eq] at h'
  obtain ⟨h1, h2⟩ := h'
  cases t with
  | mk n ver =>
    cases hv
    simp only [Store.delete, h1, Bool.false_eq_true, if_false]
    by_cases hl : v = "latest"
    · simp [hl, h2 hl]
    · simp [hl]

/-- C10 witnessed at a concrete input: deleting `demo:1` from an empty
store raises the backend error for path `demo/1`. -/
theorem c10_delete_missing_version_witness :
    Store.delete emptyStore ⟨"demo", some "1"⟩ = .error (.resourceNotFound "demo/1") :=
  c10_delete_missing_version_raises_backend_error emptyStore ⟨"demo", some "1"⟩ "1"
    rfl (by decide)

/-! State-primitive lemmas shared by the remaining claims. -/

theorem findName_map (names : List NameDir) (f : NameDir → NameDir)
    (hf : ∀ nd, (f nd).name = nd.name) (n : String) :
    StoreState.findName ⟨names.map f⟩ n = (StoreState.findName ⟨names⟩ n).map f := by
  have hp : ((fun nd => nd.name == n) ∘ f) = (fun nd => nd.name == n) := by
    funext nd
    simp [Function.comp, hf]
  show (names.map f).find? (fun nd => nd.name == n)
      = (names.find? (fun nd => nd.name == n)).map f
  rw [List.find?_map, hp]

theorem isdirName_mk_map (names : List NameDir) (f : NameDir → NameDir)
    (hf : ∀ nd, (f nd).name = nd.name) (n : String) :
    (StoreState.mk (names.map f)).isdirName n = (StoreState.mk names).isdirName n := by
  unfold StoreState.isdirName
  rw [findName_map names f hf]
  cases StoreState.findName ⟨names⟩ n <;> rfl

theorem isdirName_mk_append_single (names : List NameDir) (nd : NameDir)
    (hnd : nd.name = n) :
    (StoreState.mk (names ++ [nd])).isdirName n = true := by
  show ((names ++ [nd]).find? (fun x => x.name == n)).isSome = true
  rw [List.find?_append]
  cases hfind : names.find? (fun x => x.name == n) with
  | some y => simp
  | none => simp [List.find?, hnd]

theorem writeLatest_names (st : StoreState) (n s : String) :
    StoreState.writeLatest st n s =
      ⟨st.names.map (fun nd => if nd.name == n then ⟨nd.name, nd.versions, some s⟩ else nd)⟩ :=
  rfl

theorem findName_writeLatest (st : StoreState) (n s m : String) :
    (st.writeLatest n s).findName m = (st.findName m).map
      (fun nd => if nd.name == n then ⟨nd.name, nd.versions, some s⟩ else nd) := by
  rw [writeLatest_names]
  exact findName_map st.names _ (fun nd => by by_cases h : nd.name == n <;> simp [h]) m

theorem findName_setCreation (st : StoreState) (n v : String) (ct : Nat) (m : String) :
    (st.setCreation n v ct).findName m = (st.findName m).map
      (fun nd => if nd.name == n then
        ⟨nd.name, nd.versions.map (fun vd => if vd.version == v then ⟨vd.version, ct⟩ else vd),
          nd.latest⟩
      else nd) := by
  unfold StoreState.setCreation
  exact findName_map st.names _ (fun nd => by by_cases h : nd.name == n <;> simp [h]) m

theorem findName_removeVersion (st : StoreState) (n v : String) (m : String) :
    (st.removeVersion n v).findName m = (st.findName m).map
      (fun nd => if nd.name == n then
        ⟨nd.name, nd.versions.filter (fun vd => vd.version != v), nd.latest⟩
      else nd) := by
  unfold StoreState.removeVersion
  exact findName_map st.names _ (fun nd => by by_cases h : nd.name == n <;> simp [h]) m

theorem findName_removeName (st : StoreState) (n : String) :
    (st.removeName n).findName n = none := by
  unfold StoreState.removeName StoreState.findName
  rw [List.find?_eq_none]
  intro nd hmem
  have := (List.mem_filter.mp hmem).2
  simpa using this

theorem findName_some_name (st : StoreState) (n : String) (nd : NameDir)
    (h : st.findName n = some nd) : nd.name = n := by
  have := List.find?_some h
  simpa using this

theorem isdirName_makedirs (st : StoreState) (t : Tag) :
    (st.makedirs t).isdirName t.name = true := by
  cases hv : t.version with
  | none =>
    by_cases h : st.isdirName t.name
    · have heq : st.makedirs t = st := by
        unfold StoreState.makedirs
        rw [hv]
        simp [h]
      rw [heq]
      exact h
    · have heq : st.makedirs t = ⟨st.names ++ [⟨t.name, [], none⟩]⟩ := by
        unfold StoreState.makedirs
        rw [hv]
        simp [h]
      rw [heq]
      exact isdirName_mk_append_single st.names ⟨t.name, [], none⟩ rfl
  | some v =>
    by_cases h : st.isdirName t.name
    · have heq : st.makedirs t = ⟨st.names.map (fun nd =>
          if nd.name == t.name then ⟨nd.name, nd.versions ++ [⟨v, 0⟩], nd.latest⟩ else nd)⟩ := by
        unfold StoreState.makedirs
        rw [hv]
        simp [h]
      rw [heq, isdirName_mk_map st.names _
        (fun nd => by by_cases hh : nd.name == t.name <;> simp [hh])]
      exact h
    · have heq : st.makedirs t = ⟨st.names ++ [⟨t.name, [⟨v, 0⟩], none⟩]⟩ := by
        unfold StoreState.makedirs
        rw [hv]
        simp [h]
      rw [heq]
      exact isdirName_mk_append_single st.names ⟨t.name, [⟨v, 0⟩], none⟩ rfl

theorem latestContents_writeLatest_self (st : StoreState) (n s : String)
    (h : st.isdirName n = true) : (st.writeLatest n s).latestContents n = some s := by
  unfold StoreState.latestContents
  rw [findName_writeLatest]
  unfold StoreState.isdirName at h
  obtain ⟨nd, hnd⟩ := Option.isSome_iff_exists.mp h
  have hname := findName_some_name st n nd hnd
  simp [hnd, hname]

theorem isdirName_setCreation (st : StoreState) (n v : String) (ct : Nat) (m : String) :
    (st.setCreation n v ct).isdirName m = st.isdirName m := by
  unfold StoreState.isdirName
  rw [findName_setCreation]
  cases st.findName m <;> rfl

/-! Claim C4. -/

/-- C4: the release step of `register` runs on every exit path — for both
body outcomes (normal completion and caller error or cancellation) a
successful acquisition ends with the name's latest-pointer file containing
the registered tag's version string, even when population failed. -/
theorem c4_register_release_on_every_exit (st : StoreState) (t : Tag) (v : String)
    (body : Store.BodyOutcome) (st' : StoreState) (hv : t.version = some v)
    (h : Store.register_run st t body = .ok st') :
    st'.latestContents t.name = some v := by
  unfold Store.register_run at h
  cases henter : Store.register_enter st t with
  | error e => rw [henter] at h; exact absurd h (by simp)
  | ok st1 =>
    rw [henter] at h
    have hst1 : st1 = st.makedirs t := by
      unfold Store.register_enter at henter
      by_cases hex : st.tagPathExists t
      · simp [hex] at henter
      · simp [hex] at henter; exact henter.symm
    have hdir : st1.isdirName t.name = true := by
      rw [hst1]
      exact isdirName_makedirs st t
    cases body with
    | completed ct =>
      cases h
      unfold Store.register_exit
      simp only [hv, Option.getD_some]
      apply latestContents_writeLatest_self
      rw [isdirName_setCreation]
      exact hdir
    | failed =>
      cases h
      unfold Store.register_exit
      simp only [hv, Option.getD_some]
      exact latestContents_writeLatest_self st1 t.name v hdir

/-- C4 witnessed: registering `demo:1` into an empty store with a failing
body still ends with the pointer at `1`. -/
theorem c4_register_release_witness :
    Store.register_run emptyStore ⟨"demo", some "1"⟩ .failed
        = .ok ⟨[⟨"demo", [⟨"1", 0⟩], some "1"⟩]⟩
    ∧ (⟨[⟨"demo", [⟨"1", 0⟩], some "1"⟩]⟩ : StoreState).latestContents "demo"
        = some "1" :=
  ⟨rfl, c4_register_release_on_every_exit emptyStore ⟨"demo", some "1"⟩ "1" .failed
    ⟨[⟨"demo", [⟨"1", 0⟩], some "1"⟩]⟩ rfl rfl⟩

/-! Claim C5. -/

/-- C5: in `get` with an explicit (non-reserved) version, an exact
version-subdirectory match takes precedence — the item for the exact tag is
returned — and only when no exact subdirectory exists is the version treated
as a prefix, a unique prefix match resolving to that matched version's
item. -/
theorem c5_exact_match_takes_precedence (st : StoreState) (itemType n v : String)
    (hne : v ≠ "latest") :
    (st.isdirVersion n v = true →
      Store.get st itemType ⟨n, some v⟩ = .ok (st.getItem n v))
    ∧ (st.isdirVersion n v = false → ∀ m, st.globDirs n v = [m] →
      Store.get st itemType ⟨n, some v⟩ = .ok (st.getItem n m)) := by
  constructor
  · intro h
    simp [Store.get, Store.resolvedVersion, hne, StoreState.pathExists, h]
  · intro h m hglob
    simp [Store.get, Store.resolvedVersion, hne, StoreState.pathExists, h, hglob]

/-- A store holding versions `1` and `10` of `demo` — both an exact match
and a second prefix match for the request `demo:1`. -/
def demo_1_10_store : StoreState :=
  ⟨[⟨"demo", [⟨"1", 4⟩, ⟨"10", 6⟩], some "10"⟩]⟩

/-- A store holding only version `10` of `demo` — the unique prefix match
for the request `demo:1`, with no exact match. -/
def demo_10_store : StoreState :=
  ⟨[⟨"demo", [⟨"10", 6⟩], some "10"⟩]⟩

/-- C5 witnessed: with both `demo:1` and `demo:10` present, `get demo:1`
returns the exact `demo:1`; with only `demo:10` present it prefix-resolves
to `demo:10`. -/
theorem c5_exact_match_takes_precedence_witness :
    Store.get demo_1_10_store "Bento" ⟨"demo", some "1"⟩
        = .ok ⟨⟨"demo", some "1"⟩, 4⟩
    ∧ Store.get demo_10_store "Bento" ⟨"demo", some "1"⟩
        = .ok ⟨⟨"demo", some "10"⟩, 6⟩ :=
  ⟨(c5_exact_match_takes_precedence demo_1_10_store "Bento" "demo" "1"
      (by decide)).1 (by decide),
   (c5_exact_match_takes_precedence demo_10_store "Bento" "demo" "1"
      (by decide)).2 (by decide) "10" (by decide)⟩

/-! Claim C6. -/

/-- C6: `register` on a tag whose version subtree already exists fails with
the already-exists error at the precondition check, before any backend
mutation; no successor state is produced (the whole scoped acquisition
yields the same error for every body outcome), so the backend — including
the existing version's contents and the latest pointer — is untouched. -/
theorem c6_register_existing_fails_without_mutation (st : StoreState) (t : Tag)
    (v : String) (hv : t.version = some v) (h : st.isdirVersion t.name v = true) :
    Store.register_enter st t = .error (.alreadyExists (alreadyExistsMsg t.str))
    ∧ ∀ body st', Store.register_run st t body ≠ .ok st' := by
  have hex : st.tagPathExists t = true := by
    unfold StoreState.tagPathExists
    rw [hv]
    simp [StoreState.pathExists, h]
  constructor
  · unfold Store.register_enter
    simp [hex]
  · intro body st'
    unfold Store.register_run Store.register_enter
    simp [hex]

/-- C6 witnessed: registering `demo:1` over an existing `demo:1` errors for
a failing body and produces no state. -/
theorem c6_register_existing_witness :
    Store.register_enter demo_1_10_store ⟨"demo", some "1"⟩
        = .error (.alreadyExists (alreadyExistsMsg "demo:1"))
    ∧ Store.register_run demo_1_10_store ⟨"demo", some "1"⟩ .failed
        ≠ .ok demo_1_10_store :=
  ⟨(c6_register_existing_fails_without_mutation demo_1_10_store ⟨"demo", some "1"⟩
      "1" rfl (by decide)).1,
   (c6_register_existing_fails_without_mutation demo_1_10_store ⟨"demo", some "1"⟩
      "1" rfl (by decide)).2 .failed demo_1_10_store⟩

/-! Claim C7. -/

/-- C7: exact characterization of when `get` fails with the store's
`NotFound` kind — either the tag's version is absent or `latest` and the
latest-pointer file is missing (the message then naming the item-type and
the name), or the resolved working version has no exact version
subdirectory and zero prefix matches (the message then naming the item-type
and the requested tag).  The hypothesis excludes the unreachable state in
which a latest-pointer file holds the reserved token `latest` itself
(registration of a version literally named `latest` dies in the release
step before such a pointer is written). -/
theorem c7_notFound_exact_cases (st : StoreState) (itemType : String) (t : Tag)
    (msg : String) (hlat : st.latestContents t.name ≠ some "latest") :
    Store.get st itemType t = .error (.notFound msg) ↔
      (((t.version = none ∨ t.version = some "latest")
          ∧ st.latestContents t.name = none ∧ msg = noItemsMsg itemType t.name)
        ∨ (∃ v, Store.resolvedVersion st t = some v
            ∧ st.isdirVersion t.name v = false ∧ st.globDirs t.name v = []
            ∧ msg = notFoundMsg itemType t.str)) := by
  have hres_none_iff : Store.resolvedVersion st t = none ↔
      ((t.version = none ∨ t.version = some "latest")
        ∧ st.latestContents t.name = none) := by
    unfold Store.resolvedVersion
    by_cases hc : t.version = none ∨ t.version = some "latest"
    · simp [hc]
    · rw [if_neg hc]
      exact ⟨fun h => absurd (Or.inl h) hc, fun hp => absurd hp.1 hc⟩
  cases hres : Store.resolvedVersion st t with
  | none =>
    have hget : Store.get st itemType t
        = .error (.notFound (noItemsMsg itemType t.name)) := by
      unfold Store.get
      rw [hres]
    rw [hget]
    constructor
    · intro h
      injection h with h1
      injection h1 with h2
      obtain ⟨hcond, hlc⟩ := hres_none_iff.mp hres
      exact Or.inl ⟨hcond, hlc, h2.symm⟩
    · rintro (⟨_, _, hmsg⟩ | ⟨v, hv, _⟩)
      · rw [hmsg]
      · exact absurd hv (by simp)
  | some v =>
    have hvne : v ≠ "latest" := by
      unfold Store.resolvedVersion at hres
      by_cases hc : t.version = none ∨ t.version = some "latest"
      · rw [if_pos hc] at hres
        intro hcontra
        rw [hcontra] at hres
        exact hlat hres
      · rw [if_neg hc] at hres
        push_neg at hc
        intro hcontra
        rw [hcontra] at hres
        exact hc.2 hres
    have hpe : st.pathExists t.name v = st.isdirVersion t.name v := by
      unfold StoreState.pathExists
      have hb : (v == "latest") = false := by simp [hvne]
      rw [hb]
      simp
    have hleft_false : ¬((t.version = none ∨ t.version = some "latest")
        ∧ st.latestContents t.name = none ∧ msg = noItemsMsg itemType t.name) := by
      rintro ⟨hcond, hlc, _⟩
      unfold Store.resolvedVersion at hres
      rw [if_pos hcond, hlc] at hres
      exact Option.noConfusion hres
    cases hdir : st.isdirVersion t.name v with
    | true =>
      have hget : Store.get st itemType t = .ok (st.getItem t.name v) := by
        simp [Store.get, hres, hpe, hdir]
      rw [hget]
      constructor
      · intro h
        exact absurd h (by simp)
      · rintro (hl | ⟨v2, hv2, hd2, _, _⟩)
        · exact absurd hl hleft_false
        · injection hv2 with he
          cases he
          rw [hdir] at hd2
          exact Bool.noConfusion hd2
    | false =>
      have hpef : st.pathExists t.name v = false := by
        rw [hpe, hdir]
      cases hg : st.globDirs t.name v with
      | nil =>
        have hget : Store.get st itemType t
            = .error (.notFound (notFoundMsg itemType t.str)) := by
          simp [Store.get, hres, hpef, hg]
        rw [hget]
        constructor
        · intro h
          injection h with h1
          injection h1 with h2
          exact Or.inr ⟨v, rfl, hdir, hg, h2.symm⟩
        · rintro (hl | ⟨_, _, _, _, hmsg⟩)
          · exact absurd hl hleft_false
          · rw [hmsg]
      | cons m ms =>
        have hg_ne : st.globDirs t.name v ≠ [] := by
          rw [hg]
          exact List.cons_ne_nil m ms
        have hright_false : ¬(∃ v2, (some v : Option String) = some v2
            ∧ st.isdirVersion t.name v2 = false ∧ st.globDirs t.name v2 = []
            ∧ msg = notFoundMsg itemType t.str) := by
          rintro ⟨v2, hv2, _, hg2, _⟩
          injection hv2 with he
          rw [← he] at hg2
          exact hg_ne hg2
        cases ms with
        | nil =>
          have hget : Store.get st itemType t = .ok (st.getItem t.name m) := by
            simp [Store.get, hres, hpef, hg]
          rw [hget]
          constructor
          · intro h
            exact absurd h (by simp)
          · rintro (hl | hr)
            · exact absurd hl hleft_false
            · exact absurd hr hright_false
        | cons m2 ms2 =>
          have hget : Store.get st itemType t = .error (.ambiguousVersion v
              ((m :: m2 :: ms2).foldl
                (fun acc x => acc ++ x.data.map (fun c => String.mk [c])) [])) := by
            simp [Store.get, hres, hpef, hg]
          rw [hget]
          constructor
          · intro h
            injection h with h1
            exact absurd h1 (by simp)
          · rintro (hl | hr)
            · exact absurd hl hleft_false
            · exact absurd hr hright_false

/-- C7 witnessed: on the empty store, `get ghost` (no version) fails with
the `NotFound` message naming the item-type and the name. -/
theorem c7_notFound_exact_cases_witness :
    emptyStore.latestContents "ghost" ≠ some "latest"
    ∧ Store.get emptyStore "Bento" ⟨"ghost", none⟩
        = .error (.notFound (noItemsMsg "Bento" "ghost")) :=
  ⟨by decide,
   (c7_notFound_exact_cases emptyStore "Bento" ⟨"ghost", none⟩
      (noItemsMsg "Bento" "ghost") (by decide)).mpr
     (Or.inl ⟨Or.inl rfl, rfl, rfl⟩)⟩

/-! Claim C8. -/

theorem strLt_irrefl_self (n : String) : ¬ StrLt n n := by
  unfold StrLt
  rw [strLtB_irrefl]
  exact Bool.noConfusion

theorem tagLe_same_name_iff (n : String) (a b : String) :
    TagLe ⟨n, some a⟩ ⟨n, some b⟩ ↔ StrLe a b := by
  unfold TagLe
  constructor
  · rintro (h | ⟨_, h⟩)
    · exact absurd h (strLt_irrefl_self n)
    · exact h
  · intro h
    exact Or.inr ⟨rfl, h⟩

theorem tagSort_eq_map_versionSort (n : String) (vs : List String) :
    (vs.map (fun v => Tag.mk n (some v))).insertionSort TagLe
      = (vs.insertionSort StrLe).map (fun v => Tag.mk n (some v)) :=
  (List.map_insertionSort StrLe TagLe (fun v => Tag.mk n (some v)) vs
    (fun a _ b _ => (tagLe_same_name_iff n a b).symm)).symm

theorem find?_name_of_mem : ∀ (l : List NameDir),
    (l.map (fun nd => nd.name)).Nodup → ∀ nd ∈ l,
    l.find? (fun x => x.name == nd.name) = some nd
  | [], _, _, hmem => absurd hmem (List.not_mem_nil _)
  | x :: xs, hnodup, nd, hmem => by
    rcases List.mem_cons.mp hmem with heq | hmem'
    · subst heq
      rw [List.find?_cons_of_pos xs (by simp)]
    · have hx_notin : x.name ∉ xs.map (fun nd => nd.name) :=
        (List.nodup_cons.mp (by simpa using hnodup)).1
      have hne : (x.name == nd.name) = false := by
        by_cases h : x.name = nd.name
        · exact absurd (h ▸ List.mem_map_of_mem (fun nd => nd.name) hmem') hx_notin
        · simp [h]
      have hneg : ¬ ((fun x => x.name == nd.name) x = true) := by
        simp only [hne]
        simp
      rw [List.find?_cons_of_neg xs hneg]
      exact find?_name_of_mem xs (List.nodup_cons.mp (by simpa using hnodup)).2 nd hmem'

theorem findName_of_mem_nodup (st : StoreState)
    (hnodup : (st.names.map (fun nd => nd.name)).Nodup) (nd : NameDir)
    (hmem : nd ∈ st.names) : st.findName nd.name = some nd :=
  find?_name_of_mem st.names hnodup nd hmem

theorem listGroup_eq_of_findName (st : StoreState) (n : String) (nd : NameDir)
    (hnd : st.findName n = some nd) :
    Store.listGroup st n
      = ((nd.versions.map (fun vd => vd.version)).insertionSort StrLe).map
          (fun v => st.getItem n v) := by
  unfold Store.listGroup
  rw [hnd]
  show ((nd.versions.map (fun vd => Tag.mk n (some vd.version))).insertionSort TagLe).map
      (fun tg => st.getItem tg.name (tg.version.getD "")) = _
  have hmm : nd.versions.map (fun vd => Tag.mk n (some vd.version))
      = (nd.versions.map (fun vd => vd.version)).map (fun v => Tag.mk n (some v)) := by
    rw [List.map_map]
    rfl
  rw [hmm, tagSort_eq_map_versionSort, List.map_map]
  rfl

theorem list_name_ok (st : StoreState) (n : String) (nd : NameDir)
    (hnd : st.findName n = some nd) :
    Store.list_name st n = .ok (Store.listGroup st n) := by
  unfold Store.list_name Store.listGroup
  rw [hnd]

theorem foldlM_listTag_ok (st : StoreState) : ∀ (ns : List String) (acc : List Item),
    (∀ n ∈ ns, Store.listTag st (Tag.from_taglike n) = .ok (Store.listGroup st n)) →
    (ns.foldlM (fun acc n => do
        let items ← Store.listTag st (Tag.from_taglike n)
        pure (acc ++ items)) acc)
      = .ok (acc ++ ns.flatMap (fun n => Store.listGroup st n))
  | [], acc, _ => by
    simp only [List.foldlM_nil, List.flatMap_nil, List.append_nil]
    rfl
  | n :: ns, acc, h => by
    rw [List.foldlM_cons]
    have hn := h n (List.mem_cons_self n ns)
    rw [hn]
    show (ns.foldlM _ (acc ++ Store.listGroup st n)) = _
    rw [foldlM_listTag_ok st ns (acc ++ Store.listGroup st n)
      (fun m hm => h m (List.mem_cons_of_mem n hm))]
    simp

theorem wf_listTag_ok (st : StoreState) (hwf : st.wf) (n : String)
    (hn : n ∈ st.names.map (fun nd => nd.name)) :
    Store.listTag st (Tag.from_taglike n) = .ok (Store.listGroup st n) := by
  obtain ⟨nd, hmem, hname⟩ := List.mem_map.mp hn
  subst hname
  rw [(hwf.2 nd hmem).2.1]
  show Store.list_name st nd.name = _
  exact list_name_ok st nd.name nd (findName_of_mem_nodup st hwf.1 nd hmem)

/-- C8: with no filter, `list` returns the concatenation, over all names in
ascending order, of each name's group of items; and both for that case and
for a name filter, a name's group is its items in ascending version-string
order (sorted per `StrLe` and a permutation of the name's version set). -/
theorem c8_list_grouped_and_sorted (st : StoreState) (hwf : st.wf) :
    Store.list st none
      = .ok (((st.names.map (fun nd => nd.name)).insertionSort StrLe).flatMap
          (fun n => Store.listGroup st n))
    ∧ ((st.names.map (fun nd => nd.name)).insertionSort StrLe).Sorted StrLe
    ∧ ∀ nd ∈ st.names,
        Store.list st (some ⟨nd.name, none⟩)
          = .ok (((nd.versions.map (fun vd => vd.version)).insertionSort StrLe).map
              (fun v => st.getItem nd.name v))
        ∧ Store.listGroup st nd.name
          = ((nd.versions.map (fun vd => vd.version)).insertionSort StrLe).map
              (fun v => st.getItem nd.name v)
        ∧ ((nd.versions.map (fun vd => vd.version)).insertionSort StrLe).Sorted StrLe
        ∧ ((nd.versions.map (fun vd => vd.version)).insertionSort StrLe).Perm
            (nd.versions.map (fun vd => vd.version)) := by
  refine ⟨?_, List.sorted_insertionSort StrLe _, fun nd hmem => ?_⟩
  · show Store.list_all st = _
    unfold Store.list_all
    rw [foldlM_listTag_ok st _ []
      (fun n hn => wf_listTag_ok st hwf n ((List.mem_insertionSort StrLe).mp hn))]
    simp
  · have hfind := findName_of_mem_nodup st hwf.1 nd hmem
    have hgroup := listGroup_eq_of_findName st nd.name nd hfind
    refine ⟨?_, hgroup, List.sorted_insertionSort StrLe _, List.perm_insertionSort StrLe _⟩
    show Store.list_name st nd.name = _
    rw [list_name_ok st nd.name nd hfind, hgroup]

/-- A two-name store used to witness listing: name `b` holds versions `2`
(created at 7) and `1` (created at 9), name `a` holds version `x`. -/
def two_name_store : StoreState :=
  ⟨[⟨"b", [⟨"2", 7⟩, ⟨"1", 9⟩], some "1"⟩, ⟨"a", [⟨"x", 1⟩], some "x"⟩]⟩

/-- C8 witnessed: the unfiltered listing of the two-name store is grouped
by name (`a` before `b`) with each group ascending by version string. -/
theorem c8_list_grouped_and_sorted_witness :
    two_name_store.wf
    ∧ Store.list two_name_store none
        = .ok [⟨⟨"a", some "x"⟩, 1⟩, ⟨⟨"b", some "1"⟩, 9⟩, ⟨⟨"b", some "2"⟩, 7⟩] :=
  ⟨by decide, by
    rw [(c8_list_grouped_and_sorted two_name_store (by decide)).1]
    rfl⟩

/-! Claim C9. -/

theorem names_map_name (names : List NameDir) (f : NameDir → NameDir)
    (hf : ∀ nd, (f nd).name = nd.name) :
    (names.map f).map (fun nd => nd.name) = names.map (fun nd => nd.name) := by
  rw [List.map_map]
  have hfun : ((fun nd => nd.name) ∘ f) = (fun nd : NameDir => nd.name) :=
    funext (fun nd => hf nd)
  rw [hfun]

theorem makedirs_mem (st : StoreState) (t : Tag) (v : String) (hv : t.version = some v) :
    ∀ nd2 ∈ (st.makedirs t).names,
      (nd2.name = t.name → nd2.versions ≠ []) ∧ (nd2.name ≠ t.name → nd2 ∈ st.names) := by
  intro nd2 hmem
  by_cases h : st.isdirName t.name
  · have hmk : st.makedirs t = ⟨st.names.map (fun nd =>
        if nd.name == t.name then ⟨nd.name, nd.versions ++ [⟨v, 0⟩], nd.latest⟩ else nd)⟩ := by
      unfold StoreState.makedirs
      rw [hv]
      simp [h]
    rw [hmk] at hmem
    obtain ⟨nd, hnd_mem, hnd_eq⟩ := List.mem_map.mp hmem
    by_cases hb : (nd.name == t.name) = true
    · rw [if_pos hb] at hnd_eq
      subst hnd_eq
      refine ⟨fun _ => by simp, fun hne => absurd (by simpa using hb) hne⟩
    · rw [if_neg hb] at hnd_eq
      subst hnd_eq
      exact ⟨fun heq => absurd heq (by simpa using hb), fun _ => hnd_mem⟩
  · have hmk : st.makedirs t = ⟨st.names ++ [⟨t.name, [⟨v, 0⟩], none⟩]⟩ := by
      unfold StoreState.makedirs
      rw [hv]
      simp [h]
    rw [hmk] at hmem
    rcases List.mem_append.mp hmem with hmem' | hmem'
    · have hnone : st.findName t.name = none := by
        unfold StoreState.isdirName at h
        cases hfn : st.findName t.name
        · rfl
        · rw [hfn] at h
          simp at h
      have hne : nd2.name ≠ t.name := by
        intro heq
        have hfa := List.find?_eq_none.mp hnone nd2 hmem'
        simp [heq] at hfa
      exact ⟨fun heq => absurd heq hne, fun _ => hmem'⟩
    · have hnd2 : nd2 = ⟨t.name, [⟨v, 0⟩], none⟩ := by simpa using hmem'
      subst hnd2
      exact ⟨fun _ => by simp, fun hne => absurd rfl hne⟩

theorem setCreation_rel (st : StoreState) (n v : String) (ct : Nat) :
    ∀ nd2 ∈ (st.setCreation n v ct).names,
      ∃ nd1 ∈ st.names, nd2.name = nd1.name ∧ nd2.latest = nd1.latest
        ∧ (nd2.versions = [] ↔ nd1.versions = []) := by
  intro nd2 hmem
  obtain ⟨nd1, hmem1, heq⟩ := List.mem_map.mp hmem
  by_cases hb : (nd1.name == n) = true
  · rw [if_pos hb] at heq
    subst heq
    exact ⟨nd1, hmem1, rfl, rfl, by simp⟩
  · rw [if_neg hb] at heq
    subst heq
    exact ⟨nd1, hmem1, rfl, rfl, Iff.rfl⟩

theorem writeLatest_inv_parts (st2 : StoreState) (n s : String)
    (h_match : ∀ nd2 ∈ st2.names, nd2.name = n → nd2.versions ≠ [])
    (h_other : ∀ nd2 ∈ st2.names, nd2.name ≠ n → nd2.latest.isSome → nd2.versions ≠ []) :
    latestInv (st2.writeLatest n s) := by
  intro nd3 hmem3 hsome
  obtain ⟨nd2, hmem2, heq⟩ := List.mem_map.mp hmem3
  by_cases hb : (nd2.name == n) = true
  · rw [if_pos hb] at heq
    subst heq
    exact h_match nd2 hmem2 (by simpa using hb)
  · rw [if_neg hb] at heq
    subst heq
    exact h_other nd2 hmem2 (by simpa using hb) hsome

theorem register_exit_inv (st st2 : StoreState) (t : Tag) (v : String)
    (hv : t.version = some v)
    (hrel : ∀ nd2 ∈ st2.names, ∃ nd0 ∈ (st.makedirs t).names,
      nd2.name = nd0.name ∧ nd2.latest = nd0.latest
        ∧ (nd2.versions = [] ↔ nd0.versions = []))
    (hinv : latestInv st) : latestInv (Store.register_exit st2 t) := by
  unfold Store.register_exit
  apply writeLatest_inv_parts
  · intro nd2 hmem2 hname
    obtain ⟨nd0, hmem0, hname0, _, hver0⟩ := hrel nd2 hmem2
    intro hnil
    exact (makedirs_mem st t v hv nd0 hmem0).1 (hname0 ▸ hname) (hver0.mp hnil)
  · intro nd2 hmem2 hname hsome
    obtain ⟨nd0, hmem0, hname0, hlat0, hver0⟩ := hrel nd2 hmem2
    have hmem_st : nd0 ∈ st.names :=
      (makedirs_mem st t v hv nd0 hmem0).2 (fun hc => hname (hname0.trans hc))
    intro hnil
    exact hinv nd0 hmem_st (hlat0 ▸ hsome) (hver0.mp hnil)

theorem removeVersion_names_eq (st : StoreState) (n v : String) :
    (st.removeVersion n v).names.map (fun nd => nd.name)
      = st.names.map (fun nd => nd.name) :=
  names_map_name st.names _ (fun nd => by by_cases h : (nd.name == n) = true <;> simp [h])

theorem removeVersion_mem (st : StoreState) (n v : String) :
    ∀ nd2 ∈ (st.removeVersion n v).names, nd2.name ≠ n → nd2 ∈ st.names := by
  intro nd2 hmem hne
  obtain ⟨nd1, hmem1, heq⟩ := List.mem_map.mp hmem
  by_cases hb : (nd1.name == n) = true
  · rw [if_pos hb] at heq
    exact absurd (heq ▸ (by simpa using hb)) hne
  · rw [if_neg hb] at heq
    exact heq ▸ hmem1

theorem isdirName_removeVersion (st : StoreState) (n v m : String) :
    (st.removeVersion n v).isdirName m = st.isdirName m := by
  unfold StoreState.isdirName
  rw [findName_removeVersion]
  cases st.findName m <;> rfl

theorem listGroup_length (st : StoreState) (n : String) (nd : NameDir)
    (h : st.findName n = some nd) :
    (Store.listGroup st n).length = nd.versions.length := by
  unfold Store.listGroup
  rw [h]
  show (((nd.versions.map (fun vd => Tag.mk n (some vd.version))).insertionSort TagLe).map
      (fun tg => st.getItem tg.name (tg.version.getD ""))).length = _
  rw [List.length_map, List.length_insertionSort, List.length_map]

/-- C9: the latest-pointer invariant — a pointer file never exists without
its name directory holding at least one version — is preserved by a whole
`register` interaction (any body outcome) and by `delete`; and deleting the
sole remaining version of a name removes the entire name subtree, pointer
file included.  The `delete` part assumes the structurally inherent fact
that directory names are distinct. -/
theorem c9_latest_pointer_invariant (st : StoreState) (t : Tag) :
    (∀ v body st', t.version = some v → latestInv st →
      Store.register_run st t body = .ok st' → latestInv st')
    ∧ (∀ st', (st.names.map (fun nd => nd.name)).Nodup → latestInv st →
      Store.delete st t = .ok st' → latestInv st')
    ∧ (∀ v nd st', t.version = some v → st.findName t.name = some nd →
      nd.versions.map (fun vd => vd.version) = [v] →
      Store.delete st t = .ok st' → st'.findName t.name = none) := by
  refine ⟨?_, ?_, ?_⟩
  · -- register preserves the invariant
    intro v body st' hv hinv hrun
    unfold Store.register_run at hrun
    cases henter : Store.register_enter st t with
    | error e =>
      rw [henter] at hrun
      exact absurd hrun (by simp)
    | ok st1 =>
      rw [henter] at hrun
      have hst1 : st1 = st.makedirs t := by
        unfold Store.register_enter at henter
        by_cases hex : st.tagPathExists t
        · simp [hex] at henter
        · simp [hex] at henter
          exact henter.symm
      cases body with
      | completed ct =>
        cases hrun
        apply register_exit_inv st _ t v hv _ hinv
        intro nd2 hmem2
        obtain ⟨nd1, hmem1, hn, hl, hvr⟩ :=
          setCreation_rel st1 t.name (t.version.getD "") ct nd2 hmem2
        exact ⟨nd1, hst1 ▸ hmem1, hn, hl, hvr⟩
      | failed =>
        cases hrun
        apply register_exit_inv st st1 t v hv _ hinv
        intro nd2 hmem2
        exact ⟨nd2, hst1 ▸ hmem2, rfl, rfl, Iff.rfl⟩
  · -- delete preserves the invariant
    intro st' hnodup hinv hdel
    unfold Store.delete at hdel
    split at hdel
    · -- version absent
      split at hdel
      · cases hdel
        intro nd hm hs
        exact hinv nd (List.mem_filter.mp hm).1 hs
      · exact absurd hdel (by simp)
    · -- version present
      rename_i v hvt
      split at hdel
      · -- version subtree existed and was removed
        rename_i hd
        split at hdel
        · -- name directory still present
          rename_i hdir1
          obtain ⟨nd1, hfind1⟩ := Option.isSome_iff_exists.mp
            (show ((st.removeVersion t.name v).findName t.name).isSome from hdir1)
          have hnodup1 : ((st.removeVersion t.name v).names.map
              (fun nd => nd.name)).Nodup := by
            rw [removeVersion_names_eq]
            exact hnodup
          split at hdel
          · -- backend error from list (impossible shape for ok result)
            exact absurd hdel (by simp)
          · rename_i versions hok
            rw [list_name_ok _ t.name nd1 hfind1] at hok
            injection hok with hver
            split at hdel
            · -- no versions remain: whole name subtree removed
              cases hdel
              intro nd3 hm hs
              have hm1 : nd3 ∈ (st.removeVersion t.name v).names :=
                (List.mem_filter.mp hm).1
              have hne : nd3.name ≠ t.name := by
                have hf := (List.mem_filter.mp hm).2
                simpa using hf
              exact hinv nd3 (removeVersion_mem st t.name v nd3 hm1 hne) hs
            · -- some version remains: pointer rewritten
              rename_i x xs hsort
              cases hdel
              apply writeLatest_inv_parts
              · intro nd2 hmem2 hname
                have hfind2 : (st.removeVersion t.name v).findName nd2.name = some nd2 :=
                  findName_of_mem_nodup _ hnodup1 nd2 hmem2
                rw [hname, hfind1] at hfind2
                injection hfind2 with heq
                have hlen : (Store.listGroup (st.removeVersion t.name v) t.name).length
                    = nd1.versions.length := listGroup_length _ t.name nd1 hfind1
                have hpos : 0 < versions.length := by
                  rw [← List.length_insertionSort Store.CreationLe versions, hsort]
                  simp
                rw [← hver] at hpos
                intro hnil
                rw [heq, hnil] at hlen
                simp only [List.length_nil] at hlen
                rw [hlen] at hpos
                exact absurd hpos (by simp)
              · intro nd2 hmem2 hname hsome
                exact hinv nd2 (removeVersion_mem st t.name v nd2 hmem2 hname) hsome
        · -- name directory gone right after removing the version (unreachable
          -- in fact, but the invariant still holds there trivially only if
          -- provable; it is, because this branch requires the name lookup to
          -- fail, so no pointer of that name survives either)
          rename_i hdir1
          cases hdel
          intro nd2 hmem2 hsome
          have hne : nd2.name ≠ t.name := by
            intro heq
            have hfind2 : (st.removeVersion t.name v).findName nd2.name = some nd2 :=
              findName_of_mem_nodup _ (by rw [removeVersion_names_eq]; exact hnodup)
                nd2 hmem2
            rw [heq] at hfind2
            unfold StoreState.isdirName at hdir1
            rw [hfind2] at hdir1
            simp at hdir1
          exact hinv nd2 (removeVersion_mem st t.name v nd2 hmem2 hne) hsome
      · -- removal failed: no ok result
        split at hdel
        · exact absurd hdel (by simp)
        · exact absurd hdel (by simp)
  · -- deleting the sole remaining version removes the name subtree
    intro v nd st' hv hfind hsole hdel
    obtain ⟨vd, hvd, hrest⟩ : ∃ vd, nd.versions = [vd] ∧ vd.version = v := by
      cases hvs : nd.versions with
      | nil =>
        rw [hvs] at hsole
        exact absurd hsole (by simp)
      | cons vd rest =>
        rw [hvs] at hsole
        simp only [List.map_cons, List.cons.injEq] at hsole
        obtain ⟨h1, h2⟩ := hsole
        have hrnil : rest = [] := List.map_eq_nil_iff.mp h2
        exact ⟨vd, by rw [hrnil], h1⟩
    have hname1 : nd.name = t.name := findName_some_name st t.name nd hfind
    have hfind1 : (st.removeVersion t.name v).findName t.name
        = some ⟨nd.name, [], nd.latest⟩ := by
      rw [findName_removeVersion, hfind]
      have hbn : (nd.name == t.name) = true := by simp [hname1]
      have hfil : nd.versions.filter (fun vd => vd.version != v) = [] := by
        rw [hvd, List.filter_cons]
        simp [hrest]
      show some (if nd.name == t.name then
          (⟨nd.name, nd.versions.filter (fun vd => vd.version != v), nd.latest⟩ : NameDir)
        else nd) = some ⟨nd.name, [], nd.latest⟩
      rw [if_pos hbn, hfil]
    unfold Store.delete at hdel
    split at hdel
    · -- version-absent branch: contradicts the hypothesis
      rename_i hvt
      rw [hv] at hvt
      exact absurd hvt (by simp)
    · rename_i v2 hvt
      rw [hv] at hvt
      injection hvt with hv2
      subst hv2
      split at hdel
      · -- version subtree existed
        split at hdel
        · split at hdel
          · exact absurd hdel (by simp)
          · rename_i versions hok
            rw [list_name_ok _ t.name ⟨nd.name, [], nd.latest⟩ hfind1] at hok
            have hgroup_nil : Store.listGroup (st.removeVersion t.name v) t.name = [] := by
              unfold Store.listGroup
              rw [hfind1]
              rfl
            rw [hgroup_nil] at hok
            injection hok with hver
            split at hdel
            · cases hdel
              exact findName_removeName _ t.name
            · rename_i x xs hsort
              rw [← hver] at hsort
              exact absurd hsort (by simp)
        · rename_i hdir1
          unfold StoreState.isdirName at hdir1
          rw [hfind1] at hdir1
          simp at hdir1
      · -- version subtree reported missing: contradicts the sole-version hypothesis
        rename_i hd
        have hdt : st.isdirVersion t.name v = true := by
          unfold StoreState.isdirVersion
          rw [hfind]
          show (StoreState.findVersion nd v).isSome = true
          unfold StoreState.findVersion
          rw [hvd]
          rw [List.find?_cons_of_pos _ (by simp [hrest])]
          rfl
        exact absurd hdt hd

/-- A store holding a single name `solo` with its sole version `1`. -/
def solo_store : StoreState :=
  ⟨[⟨"solo", [⟨"1", 3⟩], some "1"⟩]⟩

/-- C9 witnessed: the invariant holds after a failed-body registration into
the empty store and after deleting one of two versions; and deleting the
sole version of `solo` removes its whole subtree. -/
theorem c9_latest_pointer_invariant_witness :
    latestInv (⟨[⟨"demo", [⟨"1", 0⟩], some "1"⟩]⟩ : StoreState)
    ∧ latestInv (⟨[⟨"b", [⟨"1", 9⟩], some "b"⟩, ⟨"a", [⟨"x", 1⟩], some "x"⟩]⟩ : StoreState)
    ∧ (⟨[]⟩ : StoreState).findName "solo" = none :=
  ⟨(c9_latest_pointer_invariant emptyStore ⟨"demo", some "1"⟩).1 "1" .failed
      ⟨[⟨"demo", [⟨"1", 0⟩], some "1"⟩]⟩ rfl (by decide) rfl,
   (c9_latest_pointer_invariant two_name_store ⟨"b", some "2"⟩).2.1
      ⟨[⟨"b", [⟨"1", 9⟩], some "b"⟩, ⟨"a", [⟨"x", 1⟩], some "x"⟩]⟩
      (by decide) (by decide) rfl,
   (c9_latest_pointer_invariant solo_store ⟨"solo", some "1"⟩).2.2 "1"
      ⟨"solo", [⟨"1", 3⟩], some "1"⟩ ⟨[]⟩ rfl (by decide) (by decide) rfl⟩

end BentoMLStore
